import Mathlib

/-!
Verification of the QDR table-extractor PDF parsing pipeline.

The definitions below are shallow embeddings of the Python sources:
`pdf_parser/unified_parser.py`, `pdf_parser/textual_parser.py`,
`pdf_parser/visual_parser.py` and `utils/parsing_utils.py`.
Coordinates produced by the pipeline are integers obtained with
`int(round(...))` from non-negative page positions, so they are modelled
as `Nat`.
-/

namespace QDR

/-! Section: parser selection (`unified_parser.py`). -/

/-- Embeds the character class `[0-9A-Fa-f]` of the hex-escape regex. -/
def isHexDigitChar (c : Char) : Bool :=
  (('0' ≤ c) && (c ≤ '9')) || (('A' ≤ c) && (c ≤ 'F')) || (('a' ≤ c) && (c ≤ 'f'))

/-- Tests whether the text begins with the pattern `\xNN` (a literal
backslash, the letter x, and two hex digits), as matched by the regex
`\\x[0-9A-Fa-f]{2}` at one position. -/
def startsHexEscape : List Char → Bool
  | a :: b :: c :: d :: _ =>
      a == '\\' && b == 'x' && isHexDigitChar c && isHexDigitChar d
  | _ => false

/-- Embeds `hex_pattern.search`: the regex matches somewhere in the text. -/
def hasHexEscape : List Char → Bool
  | [] => false
  | a :: rest => startsHexEscape (a :: rest) || hasHexEscape rest

/-- Embeds the character class `[\x00-\x08\x0B\x0C\x0E-\x1F\x7F-\x9F]`
of `ctrl_pattern` in `PdfParser._has_binary_encoding`. -/
def matchesCtrlClass (c : Char) : Bool :=
  (c.toNat ≤ 0x08) || (c.toNat == 0x0B) || (c.toNat == 0x0C) ||
    ((0x0E ≤ c.toNat) && (c.toNat ≤ 0x1F)) ||
    ((0x7F ≤ c.toNat) && (c.toNat ≤ 0x9F))

/-- Embeds membership in the allow-list `allowed = {"\n", "\t", "\r"}`. -/
def allowedCtrl (c : Char) : Bool :=
  c == '\n' || c == '\t' || c == '\r'

/-- Embeds `PdfParser._has_binary_encoding`: the hex pattern is searched on
the full text, the control pattern on the text with allow-listed
characters removed (`cleaned`). -/
def hasBinaryEncoding (text : List Char) : Bool :=
  hasHexEscape text ||
    ((text.filter (fun c => !allowedCtrl c)).any matchesCtrlClass)

/-- Result of `PdfParser._select_parser`: either the textual parser carrying
its reconstructed text, or the OCR (visual) parser. -/
inductive ParserChoice where
  | textual (t : List Char)
  | visual
deriving DecidableEq

/-- Embeds `self.token_threshold = 10` from `PdfParser.__init__`. -/
def tokenThreshold : Nat := 10

/-- Embeds `PdfParser._select_parser`.  The native reconstruction is given
as `some text` when `TextualParser` succeeded and `none` when it raised. -/
def selectParser (nTokens : Nat) (native : Option (List Char)) : ParserChoice :=
  if tokenThreshold < nTokens then
    match native with
    | some t =>
        if hasBinaryEncoding t then ParserChoice.visual else ParserChoice.textual t
    | none => ParserChoice.visual
  else ParserChoice.visual

/-- Embeds the guard `if self.n_tokens > self.token_threshold` deciding
whether `TextualParser` is attempted at all. -/
def attemptsNative (nTokens : Nat) : Bool :=
  decide (tokenThreshold < nTokens)

/-- Declarative (spec-side) reading of a Unicode control character, the
categories `[\x00-\x1F]` and `[\x7F-\x9F]`. -/
def isControlChar (c : Char) : Prop :=
  c.toNat ≤ 0x1F ∨ (0x7F ≤ c.toNat ∧ c.toNat ≤ 0x9F)

/-- Declarative (spec-side) reading of "contains a hexadecimal escape
pattern": some position holds a backslash, an x and two hex digits. -/
def containsHexEscape (text : List Char) : Prop :=
  ∃ pre h1 h2 post, text = pre ++ '\\' :: 'x' :: h1 :: h2 :: post ∧
    isHexDigitChar h1 = true ∧ isHexDigitChar h2 = true

/-- Declarative (spec-side) reading of "contains a control character
outside the allow-list". -/
def containsBadControl (text : List Char) : Prop :=
  ∃ c ∈ text, isControlChar c ∧ allowedCtrl c = false

lemma startsHexEscape_iff (l : List Char) :
    startsHexEscape l = true ↔
      ∃ h1 h2 post, l = '\\' :: 'x' :: h1 :: h2 :: post ∧
        isHexDigitChar h1 = true ∧ isHexDigitChar h2 = true := by
  rcases l with _ | ⟨a, _ | ⟨b, _ | ⟨c, _ | ⟨d, rest⟩⟩⟩⟩
  · simp [startsHexEscape]
  · simp [startsHexEscape]
  · simp [startsHexEscape]
  · simp [startsHexEscape]
  · simp only [startsHexEscape, Bool.and_eq_true, beq_iff_eq]
    constructor
    · rintro ⟨⟨⟨rfl, rfl⟩, hc⟩, hd⟩
      exact ⟨c, d, rest, rfl, hc, hd⟩
    · rintro ⟨h1, h2, post, heq, hc, hd⟩
      simp only [List.cons.injEq] at heq
      obtain ⟨rfl, rfl, rfl, rfl, rfl⟩ := heq
      exact ⟨⟨⟨rfl, rfl⟩, hc⟩, hd⟩

lemma hasHexEscape_iff (l : List Char) :
    hasHexEscape l = true ↔ containsHexEscape l := by
  induction l with
  | nil =>
      simp [hasHexEscape, containsHexEscape]
  | cons a t ih =>
      rw [hasHexEscape, Bool.or_eq_true, startsHexEscape_iff, ih]
      constructor
      · rintro (⟨h1, h2, post, heq, hc, hd⟩ | ⟨pre, h1, h2, post, heq, hc, hd⟩)
        · exact ⟨[], h1, h2, post, heq, hc, hd⟩
        · exact ⟨a :: pre, h1, h2, post, by simp [heq], hc, hd⟩
      · rintro ⟨pre, h1, h2, post, heq, hc, hd⟩
        rcases pre with _ | ⟨p, pre⟩
        · exact Or.inl ⟨h1, h2, post, heq, hc, hd⟩
        · right
          simp only [List.cons_append, List.cons.injEq] at heq
          exact ⟨pre, h1, h2, post, heq.2, hc, hd⟩

lemma char_eq_of_toNat_eq {c d : Char} (h : c.toNat = d.toNat) : c = d :=
  Char.ext (UInt32.ext h)

instance : DecidablePred isControlChar := fun c =>
  inferInstanceAs (Decidable (c.toNat ≤ 0x1F ∨ (0x7F ≤ c.toNat ∧ c.toNat ≤ 0x9F)))

lemma matchesCtrlClass_iff (c : Char) :
    matchesCtrlClass c = true ↔ (isControlChar c ∧ allowedCtrl c = false) := by
  constructor
  · intro h
    simp only [matchesCtrlClass, Bool.or_eq_true, Bool.and_eq_true,
      decide_eq_true_eq, beq_iff_eq] at h
    constructor
    · unfold isControlChar
      omega
    · simp only [allowedCtrl, Bool.or_eq_false_iff, beq_eq_false_iff_ne]
      have h10 : ('\n' : Char).toNat = 10 := by decide
      have h9 : ('\t' : Char).toNat = 9 := by decide
      have h13 : ('\r' : Char).toNat = 13 := by decide
      refine ⟨⟨fun hc => ?_, fun hc => ?_⟩, fun hc => ?_⟩ <;> subst hc <;>
        omega
  · rintro ⟨hctl, hallow⟩
    simp only [allowedCtrl, Bool.or_eq_false_iff, beq_eq_false_iff_ne] at hallow
    obtain ⟨⟨h10, h9⟩, h13⟩ := hallow
    have n10 : c.toNat ≠ 10 := fun h => h10 (char_eq_of_toNat_eq h)
    have n9 : c.toNat ≠ 9 := fun h => h9 (char_eq_of_toNat_eq h)
    have n13 : c.toNat ≠ 13 := fun h => h13 (char_eq_of_toNat_eq h)
    simp only [matchesCtrlClass, Bool.or_eq_true, Bool.and_eq_true,
      decide_eq_true_eq, beq_iff_eq]
    unfold isControlChar at hctl
    omega

lemma hasBinaryEncoding_iff (text : List Char) :
    hasBinaryEncoding text = true ↔
      (containsHexEscape text ∨ containsBadControl text) := by
  rw [hasBinaryEncoding, Bool.or_eq_true, hasHexEscape_iff]
  apply or_congr Iff.rfl
  rw [List.any_eq_true]
  constructor
  · rintro ⟨c, hc, hm⟩
    rw [List.mem_filter] at hc
    exact ⟨c, hc.1, (matchesCtrlClass_iff c).mp hm⟩
  · rintro ⟨c, hc, hctl, hallow⟩
    refine ⟨c, List.mem_filter.mpr ⟨hc, ?_⟩, (matchesCtrlClass_iff c).mpr ⟨hctl, hallow⟩⟩
    simp [hallow]

/-- C1: with enough tokens and a native text that raised no exception, the
selector rejects the native result exactly when the text contains a hex
escape pattern or a control character outside the allow-list; otherwise the
native result is accepted. -/
theorem selectParser_rejects_binary_native (n : Nat) (text : List Char)
    (hn : tokenThreshold < n) :
    ((containsHexEscape text ∨ containsBadControl text) →
        selectParser n (some text) = ParserChoice.visual) ∧
      (¬(containsHexEscape text ∨ containsBadControl text) →
        selectParser n (some text) = ParserChoice.textual text) := by
  constructor
  · intro h
    rw [← hasBinaryEncoding_iff] at h
    simp [selectParser, hn, h]
  · intro h
    rw [← hasBinaryEncoding_iff, Bool.not_eq_true] at h
    simp [selectParser, hn, h]

/-- Witness for C1 at a concrete corrupted text and a concrete clean text. -/
theorem selectParser_rejects_binary_native_witness :
    tokenThreshold < 11 ∧
      selectParser 11 (some ['a', Char.ofNat 0x01, 'b']) = ParserChoice.visual ∧
      selectParser 11 (some ['o', 'k']) = ParserChoice.textual ['o', 'k'] := by
  refine ⟨by decide, ?_, ?_⟩
  · exact (selectParser_rejects_binary_native 11 ['a', Char.ofNat 0x01, 'b']
      (by decide)).1
      (Or.inr ⟨Char.ofNat 0x01, by decide, by decide⟩)
  · refine (selectParser_rejects_binary_native 11 ['o', 'k'] (by decide)).2 ?_
    rw [← hasBinaryEncoding_iff, Bool.not_eq_true]
    decide

/-- C8: with a token count below the threshold the selector returns the OCR
parser without attempting native extraction, and native extraction is
attempted exactly when the token count exceeds the threshold. -/
theorem selectParser_skips_sparse (n : Nat) (native : Option (List Char)) :
    (n < tokenThreshold →
        selectParser n native = ParserChoice.visual ∧ attemptsNative n = false) ∧
      (attemptsNative n = true ↔ tokenThreshold < n) := by
  constructor
  · intro h
    have hng : ¬ tokenThreshold < n := by omega
    constructor
    · simp [selectParser, hng]
    · simp [attemptsNative, hng]
  · simp [attemptsNative]

/-- Witness for C8 at a concrete sparse document. -/
theorem selectParser_skips_sparse_witness :
    3 < tokenThreshold ∧
      selectParser 3 (some ['o', 'k']) = ParserChoice.visual ∧
      attemptsNative 3 = false := by
  refine ⟨by decide, ?_⟩
  exact (selectParser_skips_sparse 3 (some ['o', 'k'])).1 (by decide)

/-! Section: page joining (C2).  `TextualParser.parse_pdf_and_format` runs
`self.page_delimiter.join(pages_text)`, while
`VisualParser.read_text_from_images` accumulates
`text += img_text + self.page_delimiter` for every processed page. -/

/-- Embeds `page_delimiter` of both parsers. -/
def pageDelimiter : String := "\n------------\n"

/-- Embeds the textual path: `full_text = self.page_delimiter.join(pages_text)`. -/
def joinPagesTextual (pages : List String) : String :=
  String.intercalate pageDelimiter pages

/-- Embeds the visual path: starting from the empty string, each processed
page appends its text followed by the page delimiter. -/
def joinPagesVisual (pages : List String) : String :=
  pages.foldl (fun acc p => acc ++ p ++ pageDelimiter) ""

/-- Modelled from the spec: the delimiter is placed only between
consecutive pages, with no leading or trailing delimiter. -/
def joinPagesBetween : List String → String
  | [] => ""
  | [p] => p
  | p :: q :: rest => p ++ pageDelimiter ++ joinPagesBetween (q :: rest)

/-- Concatenation in which every page is followed by the delimiter,
including the last one. -/
def joinPagesAppendEach : List String → String
  | [] => ""
  | p :: rest => p ++ pageDelimiter ++ joinPagesAppendEach rest

/-- Tail of the delimiter-between join: delimiter before every page. -/
def joinDelimTail (s : String) : List String → String
  | [] => ""
  | a :: as => s ++ a ++ joinDelimTail s as

lemma intercalate_go_eq (s : String) (l : List String) (acc : String) :
    String.intercalate.go acc s l = acc ++ joinDelimTail s l := by
  induction l generalizing acc with
  | nil => simp [String.intercalate.go, joinDelimTail]
  | cons a as ih =>
      rw [String.intercalate.go, ih, joinDelimTail]
      simp [String.append_assoc]

lemma joinPagesBetween_cons (p : String) (l : List String) :
    joinPagesBetween (p :: l) = p ++ joinDelimTail pageDelimiter l := by
  induction l generalizing p with
  | nil => simp [joinPagesBetween, joinDelimTail]
  | cons q rest ih =>
      rw [joinPagesBetween, ih, joinDelimTail]
      simp [String.append_assoc]

lemma joinPagesVisual_foldl (pages : List String) (acc : String) :
    pages.foldl (fun acc p => acc ++ p ++ pageDelimiter) acc =
      acc ++ joinPagesAppendEach pages := by
  induction pages generalizing acc with
  | nil => simp [joinPagesAppendEach]
  | cons p rest ih =>
      rw [List.foldl_cons, ih, joinPagesAppendEach]
      simp [String.append_assoc]

/-- C2 counterexample: for a single-page document the visual path emits a
trailing page delimiter, so its raw text differs from the delimiter-between
join that the claim states for both paths. -/
theorem joinPagesVisual_counterexample :
    joinPagesVisual ["a"] ≠ joinPagesBetween ["a"] := by
  decide

/-- C2 amended: the textual path joins pages with the delimiter placed only
between consecutive pages (no leading or trailing delimiter), while the
visual path appends the delimiter after every processed page, including the
last, so its raw text always ends with the delimiter when any page was
processed. -/
theorem joinPages_amended (pages : List String) :
    joinPagesTextual pages = joinPagesBetween pages ∧
      joinPagesVisual pages = joinPagesAppendEach pages := by
  constructor
  · rcases pages with _ | ⟨p, l⟩
    · rfl
    · rw [joinPagesTextual, String.intercalate, intercalate_go_eq,
        joinPagesBetween_cons]
  · rw [joinPagesVisual, joinPagesVisual_foldl]
    exact String.empty_append _

/-! Section: grid rendering (`TextualParser.format_text_by_grid_position`).
One rendered line starts from a buffer of `format__line_length` spaces; for
every word, sorted by x index, the target column is looked up (defaulting
to the cursor), clamped to `cursor + format__min_gap`, the characters are
written where they fit, and the cursor advances past the word. -/

/-- Embeds `self.format__column_spacing = 6`. -/
def columnSpacing : Nat := 6

/-- Embeds `self.format__min_gap = 2`. -/
def minGap : Nat := 2

/-- Embeds `self.format__line_length = 200`. -/
def lineLength : Nat := 200

/-- Embeds the guarded write `if actual_pos + i < line_length:
line[actual_pos + i] = char`; offsets past the end are dropped. -/
def writeCharAt (buf : List Char) (pos : Nat) (c : Char) : List Char :=
  if pos < lineLength then buf.set pos c else buf

/-- Writes the characters of a word at consecutive buffer offsets. -/
def writeChars (buf : List Char) (pos : Nat) : List Char → List Char
  | [] => buf
  | c :: cs => writeChars (writeCharAt buf pos c) (pos + 1) cs

/-- Embeds one iteration of the placement loop: the state is the line
buffer, the cursor position, and the placements recorded so far; the word
is placed at `max(cursor_pos + min_gap, target_pos)`. -/
def lineStep (cols : Nat → Option Nat) (st : List Char × Nat × List (Nat × String))
    (w : Nat × String) : List Char × Nat × List (Nat × String) :=
  let target := (cols w.1).getD st.2.1
  let actual := max (st.2.1 + minGap) target
  (writeChars st.1 actual w.2.toList, actual + w.2.length,
    st.2.2 ++ [(actual, w.2)])

/-- Embeds `sorted(lines_by_y[y_index], key=lambda x: x[0])`, the stable
sort of one line's words by x index. -/
def sortByXIndex (ws : List (Nat × String)) : List (Nat × String) :=
  List.insertionSort (fun a b => a.1 ≤ b.1) ws

/-- Runs the placement loop for one line starting from a blank buffer of
`line_length` spaces and cursor 0. -/
def renderLineState (cols : Nat → Option Nat) (ws : List (Nat × String)) :
    List Char × Nat × List (Nat × String) :=
  (sortByXIndex ws).foldl (lineStep cols) (List.replicate lineLength ' ', 0, [])

/-- Placement offsets chosen for the words of one line. -/
def linePlacements (cols : Nat → Option Nat) (ws : List (Nat × String)) :
    List (Nat × String) :=
  (renderLineState cols ws).2.2

/-- Embeds the `.rstrip()` applied to each joined line. -/
def rstripChars (l : List Char) : List Char :=
  (l.reverse.dropWhile Char.isWhitespace).reverse

/-- Embeds `"".join(line).rstrip()`, the rendered text of one line. -/
def renderGridLine (cols : Nat → Option Nat) (ws : List (Nat × String)) : String :=
  String.mk (rstripChars (renderLineState cols ws).1)

/-- Relation between two placements: the earlier word ends at least
`min_gap` columns before the later one starts. -/
def placedGap (p q : Nat × String) : Prop :=
  p.1 + p.2.length + minGap ≤ q.1

/-- Relation between two placements: the earlier word ends no later than
the start offset of the later one (no overlap). -/
def placedNoOverlap (p q : Nat × String) : Prop :=
  p.1 + p.2.length ≤ q.1

lemma lineStep_foldl_invariant (cols : Nat → Option Nat)
    (l : List (Nat × String)) :
    ∀ (buf : List Char) (cursor : Nat) (acc : List (Nat × String)),
    List.Chain' placedGap acc → List.Pairwise placedNoOverlap acc →
    (∀ p ∈ acc, p.1 + p.2.length ≤ cursor) →
    List.Chain' placedGap (l.foldl (lineStep cols) (buf, cursor, acc)).2.2 ∧
      List.Pairwise placedNoOverlap (l.foldl (lineStep cols) (buf, cursor, acc)).2.2 := by
  induction l with
  | nil => exact fun buf cursor acc hc hp _ => ⟨hc, hp⟩
  | cons w rest ih =>
      intro buf cursor acc hc hp hcur
      rw [List.foldl_cons]
      have hact : cursor + minGap ≤ max (cursor + minGap) ((cols w.1).getD cursor) :=
        le_max_left _ _
      apply ih
      · rw [List.chain'_append]
        refine ⟨hc, List.chain'_singleton _, ?_⟩
        intro x hx y hy
        rw [List.head?_cons, Option.mem_def, Option.some.injEq] at hy
        subst hy
        have hxm : x ∈ acc := List.mem_of_mem_getLast? hx
        have := hcur x hxm
        unfold placedGap
        simp only
        omega
      · rw [List.pairwise_append]
        refine ⟨hp, List.pairwise_singleton _ _, ?_⟩
        intro x hx y hy
        rw [List.mem_singleton] at hy
        subst hy
        have := hcur x hx
        unfold placedNoOverlap
        simp only
        omega
      · intro p hp'
        rw [List.mem_append, List.mem_singleton] at hp'
        rcases hp' with hmem | rfl
        · have := hcur p hmem
          simp only
          omega
        · simp only
          omega

/-- C4: in every rendered line, each word is placed at
`max(cursor + min_gap, target)`, so consecutive placements are separated by
at least `min_gap = 2` columns, and for any two placements in horizontal
order the end offset of the earlier word is at most the start offset of the
later word: no two words overlap. -/
theorem renderLine_no_overlap (cols : Nat → Option Nat) (ws : List (Nat × String)) :
    List.Chain' placedGap (linePlacements cols ws) ∧
      List.Pairwise placedNoOverlap (linePlacements cols ws) := by
  unfold linePlacements renderLineState
  exact lineStep_foldl_invariant cols (sortByXIndex ws)
    (List.replicate lineLength ' ') 0 [] List.chain'_nil List.Pairwise.nil
    (by intro p hp; exact absurd hp (List.not_mem_nil p))

lemma writeCharAt_length (buf : List Char) (pos : Nat) (c : Char) :
    (writeCharAt buf pos c).length = buf.length := by
  unfold writeCharAt
  split
  · exact List.length_set buf pos c
  · rfl

lemma writeChars_length (cs : List Char) :
    ∀ (buf : List Char) (pos : Nat), (writeChars buf pos cs).length = buf.length := by
  induction cs with
  | nil => intro buf pos; rfl
  | cons c cs ih =>
      intro buf pos
      rw [writeChars, ih, writeCharAt_length]

lemma lineStep_length (cols : Nat → Option Nat)
    (st : List Char × Nat × List (Nat × String)) (w : Nat × String) :
    (lineStep cols st w).1.length = st.1.length := by
  unfold lineStep
  exact writeChars_length _ _ _

lemma lineStep_foldl_length (cols : Nat → Option Nat) (l : List (Nat × String)) :
    ∀ st : List Char × Nat × List (Nat × String),
    (l.foldl (lineStep cols) st).1.length = st.1.length := by
  induction l with
  | nil => intro st; rfl
  | cons w rest ih =>
      intro st
      rw [List.foldl_cons, ih, lineStep_length]

/-- C10: the line buffer always keeps exactly `line_length` characters
(writes never extend it), a write at an offset of `line_length` or more
leaves the buffer unchanged (the character is silently dropped), and every
rendered line, after trailing-whitespace trimming, has length at most
`line_length = 200`. -/
theorem renderLine_bounded (cols : Nat → Option Nat) (ws : List (Nat × String)) :
    (renderLineState cols ws).1.length = lineLength ∧
      (renderGridLine cols ws).length ≤ lineLength ∧
      (∀ (buf : List Char) (pos : Nat) (c : Char), lineLength ≤ pos →
        writeCharAt buf pos c = buf) := by
  have hlen : (renderLineState cols ws).1.length = lineLength := by
    unfold renderLineState
    rw [lineStep_foldl_length, List.length_replicate]
  refine ⟨hlen, ?_, ?_⟩
  · show (String.mk (rstripChars (renderLineState cols ws).1)).length ≤ lineLength
    have h1 : (String.mk (rstripChars (renderLineState cols ws).1)).length =
        (rstripChars (renderLineState cols ws).1).length := rfl
    rw [h1]
    unfold rstripChars
    calc ((((renderLineState cols ws).1.reverse.dropWhile Char.isWhitespace)).reverse).length
        = ((renderLineState cols ws).1.reverse.dropWhile Char.isWhitespace).length := by
          rw [List.length_reverse]
      _ ≤ (renderLineState cols ws).1.reverse.length :=
          (List.dropWhile_sublist _).length_le
      _ = (renderLineState cols ws).1.length := by rw [List.length_reverse]
      _ = lineLength := hlen
  · intro buf pos c hpos
    unfold writeCharAt
    rw [if_neg (by omega)]

/-- Witness for C10 at a concrete line and a concrete out-of-range write. -/
theorem renderLine_bounded_witness :
    (renderLineState (fun _ => some 0) [(0, "hello")]).1.length = lineLength ∧
      (renderGridLine (fun _ => some 0) [(0, "hello")]).length ≤ lineLength ∧
      lineLength ≤ 250 ∧
      writeCharAt ['q'] 250 'z' = ['q'] := by
  obtain ⟨h1, h2, h3⟩ := renderLine_bounded (fun _ => some 0) [(0, "hello")]
  exact ⟨h1, h2, by decide, h3 ['q'] 250 'z' (by decide)⟩

/-! Section: page stitching (`TextualParser.parse_pdf_and_format`).  For
every successfully processed page, `df['y_index'] += y_offset` and then
`y_offset = df['y_index'].max() + 1`. -/

/-- Embeds the per-page stitching loop: each page contributes the row
indices of its words; they are shifted by the running offset, and the
offset becomes one past the maximum shifted index. -/
def stitchPages (off : Nat) : List (List Nat) → List (List Nat)
  | [] => []
  | p :: ps =>
      (p.map (· + off)) :: stitchPages ((p.map (· + off)).foldl max 0 + 1) ps

lemma foldl_max_init_le (l : List Nat) : ∀ init : Nat, init ≤ l.foldl max init := by
  induction l with
  | nil => intro init; exact le_refl init
  | cons a t ih =>
      intro init
      rw [List.foldl_cons]
      exact le_trans (le_max_left init a) (ih (max init a))

lemma le_foldl_max (l : List Nat) : ∀ (init a : Nat), a ∈ l → a ≤ l.foldl max init := by
  induction l with
  | nil => intro init a h; exact absurd h (List.not_mem_nil a)
  | cons b t ih =>
      intro init a h
      rw [List.foldl_cons]
      rcases List.mem_cons.mp h with rfl | hmem
      · exact le_trans (le_max_right init a) (foldl_max_init_le t (max init a))
      · exact ih (max init b) a hmem

lemma stitchPages_lower (ps : List (List Nat)) :
    ∀ off : Nat, (∀ p ∈ ps, p ≠ []) →
    ∀ q ∈ stitchPages off ps, ∀ a ∈ q, off ≤ a := by
  induction ps with
  | nil =>
      intro off _ q hq
      exact absurd hq (List.not_mem_nil q)
  | cons p rest ih =>
      intro off hne q hq a ha
      rw [stitchPages, List.mem_cons] at hq
      rcases hq with rfl | hmem
      · obtain ⟨x, _, rfl⟩ := List.mem_map.mp ha
        omega
      · have hoffle : off ≤ (p.map (· + off)).foldl max 0 + 1 := by
          rcases p with _ | ⟨y, t⟩
          · exact absurd rfl (hne [] (List.mem_cons_self _ _))
          · have hy : y + off ∈ (y :: t).map (· + off) := by
              rw [List.map_cons]
              exact List.mem_cons_self _ _
            have := le_foldl_max ((y :: t).map (· + off)) 0 (y + off) hy
            omega
        have := ih ((p.map (· + off)).foldl max 0 + 1)
          (fun r hr => hne r (List.mem_cons_of_mem p hr)) q hmem a ha
        omega

/-- C3: after stitching, for pages processed in order, every row index
assigned to a word of a later page is strictly greater than every row index
of every earlier page; the running offset is one plus the maximum row index
of the previous page, so row indices never repeat across the document.
Pages are required to contain at least one word, matching a successfully
processed page. -/
theorem stitchPages_strict_mono (pages : List (List Nat))
    (hne : ∀ p ∈ pages, p ≠ []) :
    List.Pairwise (fun P Q => ∀ a ∈ P, ∀ b ∈ Q, a < b) (stitchPages 0 pages) := by
  suffices h : ∀ off, (∀ p ∈ pages, p ≠ []) →
      List.Pairwise (fun P Q => ∀ a ∈ P, ∀ b ∈ Q, a < b) (stitchPages off pages) from
    h 0 hne
  clear hne
  induction pages with
  | nil => intro off _; exact List.Pairwise.nil
  | cons p rest ih =>
      intro off hne
      rw [stitchPages]
      constructor
      · intro Q hQ a ha b hb
        have hlow := stitchPages_lower rest ((p.map (· + off)).foldl max 0 + 1)
          (fun r hr => hne r (List.mem_cons_of_mem p hr)) Q hQ b hb
        have := le_foldl_max (p.map (· + off)) 0 a ha
        omega
      · exact ih ((p.map (· + off)).foldl max 0 + 1)
          (fun r hr => hne r (List.mem_cons_of_mem p hr))

/-- Witness for C3 at a concrete two-page document. -/
theorem stitchPages_strict_mono_witness :
    (∀ p ∈ [[0, 1], [0]], p ≠ ([] : List Nat)) ∧
      List.Pairwise (fun P Q => ∀ a ∈ P, ∀ b ∈ Q, a < b)
        (stitchPages 0 [[0, 1], [0]]) :=
  ⟨by decide, stitchPages_strict_mono [[0, 1], [0]] (by decide)⟩

/-! Section: coordinate binning (`TextualParser.group_coords` and
`TextualParser.map_to_bin`).  Coordinates are the non-negative integers
produced by `cell_to_tuple`. -/

/-- Embeds `self.inaccuracy_threshold = 5`. -/
def inaccuracyThreshold : Nat := 5

/-- Embeds `sorted(values)`, the ascending stable sort of plain integers. -/
def sortNat (values : List Nat) : List Nat :=
  List.insertionSort (fun a b => a ≤ b) values

/-- Embeds one iteration of the grouping loop of `group_coords`: a new
group is started when there is no group yet or the incoming value is more
than the threshold away from the last element of the last group
(`abs(val - groups[-1][-1]) > self.inaccuracy_threshold`); otherwise the
value is appended to the last group. -/
def groupStep (t : Nat) (groups : List (List Nat)) (val : Nat) : List (List Nat) :=
  match groups.getLast? with
  | none => groups ++ [[val]]
  | some g =>
      match g.getLast? with
      | none => groups ++ [[val]]
      | some x =>
          if t < Nat.dist val x then groups ++ [[val]]
          else groups.dropLast ++ [g ++ [val]]

/-- Embeds `int(np.mean(g))` on non-negative integers: the floor of the
arithmetic mean. -/
def binCenter (g : List Nat) : Nat := g.sum / g.length

/-- Embeds `TextualParser.group_coords`. -/
def groupCoords (t : Nat) (values : List Nat) : List Nat :=
  ((sortNat values).foldl (groupStep t) []).map binCenter

/-- Embeds `TextualParser.map_to_bin`: the value is mapped to the first
bin within distance 5 (the tolerance is hard-coded in the source), and
passed through unchanged when no bin is close enough. -/
def mapToBin (val : Nat) : List Nat → Nat
  | [] => val
  | b :: bs => if Nat.dist val b ≤ 5 then b else mapToBin val bs

/-- Modelled from the spec: the reference greedy pass that starts a new
bin whenever the gap from the incoming value to the last bin's running
mean exceeds the tolerance, with each emitted center the mean of the
bin's members. -/
def specMeanStep (t : Nat) (groups : List (List Nat)) (val : Nat) : List (List Nat) :=
  match groups.getLast? with
  | none => groups ++ [[val]]
  | some g =>
      if t < Nat.dist val (binCenter g) then groups ++ [[val]]
      else groups.dropLast ++ [g ++ [val]]

/-- Modelled from the spec: sort the values and run the running-mean
greedy pass, emitting each bin's mean. -/
def specGroupCoordsRunningMean (t : Nat) (values : List Nat) : List Nat :=
  ((sortNat values).foldl (specMeanStep t) []).map binCenter

/-- Splitting of a sorted list into maximal runs in which every element is
within `t` of its predecessor.  `runsGo t v vs` returns the rest of the
run started by `v` together with the unprocessed remainder. -/
def runsGo (t : Nat) : Nat → List Nat → List Nat × List Nat
  | _, [] => ([], [])
  | v, w :: ws =>
      if Nat.dist w v ≤ t then
        (w :: (runsGo t w ws).1, (runsGo t w ws).2)
      else ([], w :: ws)

lemma runsGo_snd_length (t : Nat) (vs : List Nat) :
    ∀ v : Nat, (runsGo t v vs).2.length ≤ vs.length := by
  induction vs with
  | nil => intro v; simp [runsGo]
  | cons w ws ih =>
      intro v
      rw [runsGo]
      split
      · exact le_trans (ih w) (Nat.le_succ _)
      · exact le_refl _

/-- Reference algorithm for the amended C6: the bins of the greedy pass
are exactly the maximal runs of the sorted values in which consecutive
values are within the tolerance, because each incoming value becomes the
last element of the last bin, so the comparison is always against the
previously processed value. -/
def splitRuns (t : Nat) : List Nat → List (List Nat)
  | [] => []
  | v :: vs => (v :: (runsGo t v vs).1) :: splitRuns t (runsGo t v vs).2
termination_by l => l.length
decreasing_by
  simp only [List.length_cons]
  exact Nat.lt_succ_of_le (runsGo_snd_length _ _ _)

lemma splitRuns_nil (t : Nat) : splitRuns t [] = [] := by
  rw [splitRuns.eq_def]

lemma splitRuns_cons (t v : Nat) (vs : List Nat) :
    splitRuns t (v :: vs) =
      (v :: (runsGo t v vs).1) :: splitRuns t (runsGo t v vs).2 := by
  rw [splitRuns.eq_def]

lemma groupStep_concat (t : Nat) (gs : List (List Nat)) (c : List Nat)
    (w x : Nat) (hx : c.getLast? = some x) :
    groupStep t (gs ++ [c]) w =
      if t < Nat.dist w x then (gs ++ [c]) ++ [[w]] else gs ++ [c ++ [w]] := by
  unfold groupStep
  rw [List.getLast?_concat]
  simp only [hx, List.dropLast_concat]

lemma foldl_groupStep_append (t : Nat) (rest : List Nat) :
    ∀ (gs : List (List Nat)) (c : List Nat) (x : Nat), c.getLast? = some x →
    rest.foldl (groupStep t) (gs ++ [c]) =
      gs ++ ((c ++ (runsGo t x rest).1) :: splitRuns t (runsGo t x rest).2) := by
  induction rest with
  | nil =>
      intro gs c x hx
      simp [runsGo, splitRuns_nil]
  | cons w ws ih =>
      intro gs c x hx
      rw [List.foldl_cons, groupStep_concat t gs c w x hx, runsGo]
      by_cases hd : Nat.dist w x ≤ t
      · rw [if_neg (by omega), if_pos hd,
          ih gs (c ++ [w]) w (List.getLast?_concat c)]
        simp [List.append_assoc]
      · rw [if_pos (by omega), if_neg hd,
          ih (gs ++ [c]) [w] w rfl, splitRuns_cons]
        simp [List.append_assoc]

lemma groupCoords_foldl_eq_splitRuns (t : Nat) (l : List Nat) :
    l.foldl (groupStep t) [] = splitRuns t l := by
  cases l with
  | nil => simp [splitRuns_nil]
  | cons v vs =>
      have h0 : groupStep t [] v = [] ++ [[v]] := rfl
      rw [List.foldl_cons, h0, foldl_groupStep_append t vs [] [v] v rfl,
        splitRuns_cons]
      simp

/-- Shared bridge: `group_coords` computes the centers of the maximal
within-tolerance runs of the sorted values. -/
lemma groupCoords_eq_runs (t : Nat) (values : List Nat) :
    groupCoords t values = (splitRuns t (sortNat values)).map binCenter := by
  unfold groupCoords
  rw [groupCoords_foldl_eq_splitRuns]

/-- C6 counterexample: on the values `[0, 5, 9]` with tolerance 5 the code
keeps a single bin (each gap to the previous value is at most 5), while
the running-mean reference of the claim splits after `[0, 5]` because
`|9 - mean([0,5])| > 5`; the outputs differ. -/
theorem groupCoords_running_mean_counterexample :
    groupCoords inaccuracyThreshold [0, 5, 9] = [4] ∧
      specGroupCoordsRunningMean inaccuracyThreshold [0, 5, 9] = [2, 9] ∧
      groupCoords inaccuracyThreshold [0, 5, 9] ≠
        specGroupCoordsRunningMean inaccuracyThreshold [0, 5, 9] := by
  refine ⟨by decide, by decide, by decide⟩

/-- C6 amended: `group_coords` equals the reference greedy algorithm that
sorts the values and starts a new bin exactly when the gap from the
incoming value to the last element of the last bin (the previously
processed value) exceeds the tolerance `t`; each emitted bin center is the
floor of the mean of its members.  Equivalently, the bins are the maximal
runs of the sorted values whose consecutive gaps are at most `t`. -/
theorem groupCoords_eq_reference_greedy (t : Nat) (values : List Nat) :
    groupCoords t values = (splitRuns t (sortNat values)).map binCenter :=
  groupCoords_eq_runs t values

/-- Cross-run gap relation: every element of the earlier run is more than
`t` below every element of the later run. -/
def runGap (t : Nat) (g h : List Nat) : Prop :=
  ∀ a ∈ g, ∀ b ∈ h, a + t < b

lemma runsGo_append (t : Nat) (vs : List Nat) :
    ∀ v : Nat, (runsGo t v vs).1 ++ (runsGo t v vs).2 = vs := by
  induction vs with
  | nil => intro v; simp [runsGo]
  | cons w ws ih =>
      intro v
      rw [runsGo]
      split
      · simpa using ih w
      · simp

lemma runsGo_boundary (t : Nat) (vs : List Nat) :
    ∀ v : Nat, (v :: vs).Sorted (· ≤ ·) →
      ∀ w ∈ (runsGo t v vs).2, ∀ a ∈ v :: (runsGo t v vs).1, a + t < w := by
  induction vs with
  | nil =>
      intro v _ w hw
      simp [runsGo] at hw
  | cons u us ih =>
      intro v hs w hw a ha
      have hvu : v ≤ u := List.rel_of_sorted_cons hs u (by simp)
      have hs' : (u :: us).Sorted (· ≤ ·) := hs.of_cons
      by_cases hd : Nat.dist u v ≤ t
      · have heq : runsGo t v (u :: us) =
            (u :: (runsGo t u us).1, (runsGo t u us).2) := by
          rw [runsGo, if_pos hd]
        rw [heq] at hw ha
        have hIH := ih u hs' w hw
        rcases List.mem_cons.mp ha with rfl | ha'
        · have := hIH u (by simp)
          omega
        · exact hIH a ha'
      · have heq : runsGo t v (u :: us) = ([], u :: us) := by
          rw [runsGo, if_neg hd]
        rw [heq] at hw ha
        have ha' : a = v := by simpa using ha
        subst ha'
        have hdist : Nat.dist u a = u - a := by
          rw [Nat.dist_comm]
          exact Nat.dist_eq_sub_of_le hvu
        rcases List.mem_cons.mp hw with rfl | hw'
        · omega
        · have huw : u ≤ w := List.rel_of_sorted_cons hs' w hw'
          omega

lemma splitRuns_facts (t : Nat) : ∀ (n : Nat) (l : List Nat), l.length ≤ n →
    l.Sorted (· ≤ ·) →
    (∀ g ∈ splitRuns t l, g ≠ [] ∧ g.Sorted (· ≤ ·)) ∧
      (splitRuns t l).flatten = l ∧
      List.Pairwise (runGap t) (splitRuns t l) := by
  intro n
  induction n with
  | zero =>
      intro l hl _
      have : l = [] := List.length_eq_zero.mp (Nat.le_zero.mp hl)
      subst this
      simp [splitRuns_nil]
  | succ n ih =>
      intro l hl hs
      cases l with
      | nil => simp [splitRuns_nil]
      | cons v vs =>
          rw [splitRuns_cons]
          have hsplit : (v :: (runsGo t v vs).1) ++ (runsGo t v vs).2 = v :: vs := by
            rw [List.cons_append, runsGo_append]
          have hsub1 : List.Sublist (v :: (runsGo t v vs).1) (v :: vs) := by
            rw [← hsplit]
            exact List.sublist_append_left _ _
          have hsub2 : List.Sublist (runsGo t v vs).2 (v :: vs) := by
            rw [← hsplit]
            exact List.sublist_append_right _ _
          have sorted1 : (v :: (runsGo t v vs).1).Sorted (· ≤ ·) := hs.sublist hsub1
          have sorted2 : (runsGo t v vs).2.Sorted (· ≤ ·) := hs.sublist hsub2
          have hlen2 : (runsGo t v vs).2.length ≤ n := by
            have := runsGo_snd_length t vs v
            simp only [List.length_cons] at hl
            omega
          obtain ⟨IH1, IH2, IH3⟩ := ih (runsGo t v vs).2 hlen2 sorted2
          have hbound := runsGo_boundary t vs v hs
          refine ⟨?_, ?_, ?_⟩
          · intro g hg
            rcases List.mem_cons.mp hg with rfl | hg'
            · exact ⟨List.cons_ne_nil _ _, sorted1⟩
            · exact IH1 g hg'
          · rw [List.flatten_cons, IH2, hsplit]
          · refine List.Pairwise.cons ?_ IH3
            intro g' hg' a ha b hb
            have hbmem : b ∈ (runsGo t v vs).2 := by
              rw [← IH2]
              exact List.mem_flatten.mpr ⟨g', hg', hb⟩
            exact hbound b hbmem a ha

lemma binCenter_le_of_forall (g : List Nat) (hi : Nat)
    (h : ∀ a ∈ g, a ≤ hi) : binCenter g ≤ hi := by
  unfold binCenter
  apply Nat.div_le_of_le_mul
  have := List.sum_le_card_nsmul g hi h
  simpa [nsmul_eq_mul] using this

lemma le_binCenter_of_forall (g : List Nat) (hne : g ≠ []) (lo : Nat)
    (h : ∀ a ∈ g, lo ≤ a) : lo ≤ binCenter g := by
  unfold binCenter
  rw [Nat.le_div_iff_mul_le (List.length_pos.mpr hne)]
  have := List.card_nsmul_le_sum g lo h
  calc lo * g.length = g.length * lo := Nat.mul_comm _ _
    _ ≤ g.sum := by simpa [nsmul_eq_mul] using this

lemma groupCoords_pairwise_gap (t : Nat) (values : List Nat) :
    List.Pairwise (fun b1 b2 => b1 + t < b2) (groupCoords t values) := by
  rw [groupCoords_eq_runs]
  have hsorted : (sortNat values).Sorted (· ≤ ·) :=
    List.sorted_insertionSort _ values
  obtain ⟨h1, _, h3⟩ :=
    splitRuns_facts t (sortNat values).length (sortNat values) le_rfl hsorted
  rw [List.pairwise_map]
  refine h3.imp_of_mem ?_
  intro g h hg hh hgap
  obtain ⟨hgne, _⟩ := h1 g hg
  obtain ⟨hhne, hhsorted⟩ := h1 h hh
  rcases h with _ | ⟨y, hrest⟩
  · exact absurd rfl hhne
  rcases g with _ | ⟨a0, grest⟩
  · exact absurd rfl hgne
  have hylo : ∀ b ∈ y :: hrest, y ≤ b := by
    intro b hb
    rcases List.mem_cons.mp hb with rfl | hb'
    · exact le_refl b
    · exact List.rel_of_sorted_cons hhsorted b hb'
  have hcenterh : y ≤ binCenter (y :: hrest) :=
    le_binCenter_of_forall _ (List.cons_ne_nil _ _) y hylo
  have hy6 : a0 + t < y := hgap a0 (by simp) y (by simp)
  have hcenterg : binCenter (a0 :: grest) ≤ y - t - 1 := by
    apply binCenter_le_of_forall
    intro a ha
    have := hgap a ha y (by simp)
    omega
  omega

lemma mapToBin_mem_self (bins : List Nat)
    (hp : List.Pairwise (fun x y => x + 5 < y) bins) :
    ∀ b ∈ bins, mapToBin b bins = b := by
  induction bins with
  | nil =>
      intro b hb
      simp at hb
  | cons b0 rest ih =>
      intro b hb
      obtain ⟨hhead, htail⟩ := List.pairwise_cons.mp hp
      rw [mapToBin]
      rcases List.mem_cons.mp hb with rfl | hmem
      · rw [if_pos (by simp [Nat.dist_self])]
      · have hgap : b0 + 5 < b := hhead b hmem
        have hdist : Nat.dist b b0 = b - b0 := by
          rw [Nat.dist_comm]
          exact Nat.dist_eq_sub_of_le (by omega)
        rw [if_neg (by omega)]
        exact ih htail b hmem

/-- C5: every bin center produced by `group_coords` is a fixed point of
`map_to_bin` against the same bin list: consecutive run centers are more
than the tolerance apart, so the first bin within distance 5 of a center
is that center itself. -/
theorem mapToBin_idempotent_on_bins (values : List Nat) (b : Nat)
    (hb : b ∈ groupCoords inaccuracyThreshold values) :
    mapToBin b (groupCoords inaccuracyThreshold values) = b :=
  mapToBin_mem_self (groupCoords inaccuracyThreshold values)
    (groupCoords_pairwise_gap inaccuracyThreshold values) b hb

/-- Witness for C5 at a concrete coordinate list. -/
theorem mapToBin_idempotent_on_bins_witness :
    1 ∈ groupCoords inaccuracyThreshold [0, 3, 20] ∧
      mapToBin 1 (groupCoords inaccuracyThreshold [0, 3, 20]) = 1 :=
  ⟨by decide, mapToBin_idempotent_on_bins [0, 3, 20] 1 (by decide)⟩

/-! Section: OCR page text (`VisualParser.read_text_from_images` and
`VisualParser.reconstruct_text_from_df`). -/

/-- One row of the `pytesseract.image_to_data` frame: confidence, the
(possibly missing) recognised text, and the word box position. -/
structure OcrRow where
  conf : Int
  text : Option String
  left : Nat
  top : Nat
deriving DecidableEq

/-- Embeds `data[data.conf != -1].dropna(subset=["text"])`. -/
def usableOcrRows (rows : List OcrRow) : List OcrRow :=
  rows.filter (fun r => r.conf != -1 && r.text.isSome)

/-- Embeds `self.format__line_tol = 10`. -/
def lineTol : Nat := 10

/-- Embeds insertion into the `lines` dictionary of
`reconstruct_text_from_df`: the word joins the first line key within the
tolerance, scanning keys in dictionary insertion order; otherwise a new
key is appended. -/
def insertOcrWord (y : Nat) (v : Nat × String) :
    List (Nat × List (Nat × String)) → List (Nat × List (Nat × String))
  | [] => [(y, [v])]
  | kv :: rest =>
      if Nat.dist kv.1 y ≤ lineTol then (kv.1, kv.2 ++ [v]) :: rest
      else kv :: insertOcrWord y v rest

/-- Embeds the cleaning step of `reconstruct_text_from_df`: texts are
stripped and rows whose stripped text is empty are dropped, keeping
`(left, top, text)`. -/
def strippedOcrWords (rows : List OcrRow) : List (Nat × Nat × String) :=
  rows.filterMap (fun r =>
    match r.text with
    | some s => if s.trim = "" then none else some (r.left, r.top, s.trim)
    | none => none)

/-- Embeds `VisualParser.reconstruct_text_from_df`: words are grouped into
lines keyed by vertical position with tolerance `line_tol`, lines are
emitted in ascending key order, each line's words are sorted by horizontal
position and joined with single spaces, and lines are joined with
newlines. -/
def reconstructTextFromDf (rows : List OcrRow) : String :=
  let lineGroups := (strippedOcrWords rows).foldl
    (fun acc w => insertOcrWord w.2.1 (w.1, w.2.2) acc) []
  String.intercalate "\n"
    ((List.insertionSort (fun a b => a.1 ≤ b.1) lineGroups).map
      (fun kv => String.intercalate " "
        ((List.insertionSort (fun a b => a.1 ≤ b.1) kv.2).map (fun p => p.2))))

/-- Embeds the per-page branch of `read_text_from_images`: with fewer than
10 usable OCR rows the page text is the plain transcription
(`image_to_string(...).strip().lower()`), otherwise the structured
reconstruction of the usable rows. -/
def readPageText (rows : List OcrRow) (plain : String) : String :=
  if (usableOcrRows rows).length < 10 then plain.trim.toLower
  else reconstructTextFromDf (usableOcrRows rows)

/-- C7: a page whose filtered OCR word table has fewer than 10 usable rows
yields the plain stripped and lower-cased transcription, not a structured
reconstruction; with 10 or more usable rows the structured line
reconstruction of the usable rows is used. -/
theorem readPageText_degraded (rows : List OcrRow) (plain : String) :
    ((usableOcrRows rows).length < 10 →
        readPageText rows plain = plain.trim.toLower) ∧
      (10 ≤ (usableOcrRows rows).length →
        readPageText rows plain = reconstructTextFromDf (usableOcrRows rows)) := by
  constructor
  · intro h
    rw [readPageText, if_pos h]
  · intro h
    rw [readPageText, if_neg (by omega)]

/-- Witness for C7 at a concrete empty OCR table. -/
theorem readPageText_degraded_witness :
    (usableOcrRows []).length < 10 ∧
      readPageText [] " AbC " = " AbC ".trim.toLower :=
  ⟨by decide, (readPageText_degraded [] " AbC ").1 (by decide)⟩

/-! Section: row and cell grouping (`utils/parsing_utils.py`).
`extract_rows_from_page` groups the page's words into lines by vertical
proximity, each line into cells by horizontal proximity, and combines each
cell into a tuple. -/

/-- One word dictionary from `page.extract_words()`, with the coordinates
modelled as the non-negative integers that `cell_to_tuple` rounds to. -/
structure Word where
  text : String
  x0 : Nat
  x1 : Nat
  top : Nat
  bottom : Nat
deriving DecidableEq

/-- Ordering of words by vertical position, the sort key of
`group_words_into_lines` (`sorted(words, key=lambda w: w['top'])`). -/
def topLe (a b : Word) : Prop := a.top ≤ b.top

/-- Ordering of words by horizontal position, the sort key of
`group_line_words_into_cells` and `cell_to_tuple`. -/
def x0Le (a b : Word) : Prop := a.x0 ≤ b.x0

instance : DecidableRel topLe := fun a b =>
  inferInstanceAs (Decidable (a.top ≤ b.top))

instance : DecidableRel x0Le := fun a b =>
  inferInstanceAs (Decidable (a.x0 ≤ b.x0))

instance : IsTotal Word topLe := ⟨fun a b => Nat.le_total a.top b.top⟩

instance : IsTrans Word topLe := ⟨fun _ _ _ h1 h2 => Nat.le_trans h1 h2⟩

instance : IsTotal Word x0Le := ⟨fun a b => Nat.le_total a.x0 b.x0⟩

instance : IsTrans Word x0Le := ⟨fun _ _ _ h1 h2 => Nat.le_trans h1 h2⟩

/-- Embeds Python's stable `sorted(..., key=lambda w: w['top'])`. -/
def sortByTop (ws : List Word) : List Word := List.insertionSort topLe ws

/-- Embeds Python's stable `sorted(..., key=lambda w: w['x0'])`. -/
def sortByX0 (ws : List Word) : List Word := List.insertionSort x0Le ws

/-- Embeds the line-building loop of `group_words_into_lines`: `curr` is
the current line and `currY` the `top` of the word that started it. -/
def linesGo (vt : Nat) : List Word → List Word → Nat → List (List Word)
  | [], curr, _ => [curr]
  | w :: ws, curr, currY =>
      if Nat.dist w.top currY ≤ vt then linesGo vt ws (curr ++ [w]) currY
      else curr :: linesGo vt ws [w] w.top

/-- Embeds `group_words_into_lines`. -/
def groupWordsIntoLines (vt : Nat) (words : List Word) : List (List Word) :=
  match sortByTop words with
  | [] => []
  | w :: rest => linesGo vt rest [w] w.top

/-- Embeds the cell-building loop of `group_line_words_into_cells`:
`curr` is the current cell and `currX` the `x0` of the word that started
it. -/
def cellsGo (ht : Nat) : List Word → List Word → Nat → List (List Word)
  | [], curr, _ => [curr]
  | w :: ws, curr, currX =>
      if Nat.dist w.x0 currX ≤ ht then cellsGo ht ws (curr ++ [w]) currX
      else curr :: cellsGo ht ws [w] w.x0

/-- Embeds `group_line_words_into_cells`. -/
def groupLineWordsIntoCells (ht : Nat) (lineWords : List Word) : List (List Word) :=
  match sortByX0 lineWords with
  | [] => []
  | w :: rest => cellsGo ht rest [w] w.x0

/-- Embeds `cell_to_tuple`: words ordered by `x0`, texts joined with
spaces, extremal coordinates taken over the cell. -/
def cellToTuple (cell : List Word) : String × Nat × Nat × Nat × Nat :=
  match sortByX0 cell with
  | [] => ("", 0, 0, 0, 0)
  | w :: rest =>
      (String.intercalate " " ((w :: rest).map (fun u => u.text)),
       (rest.map (fun u => u.x0)).foldl min w.x0,
       (rest.map (fun u => u.x1)).foldl max w.x1,
       (rest.map (fun u => u.top)).foldl min w.top,
       (rest.map (fun u => u.bottom)).foldl max w.bottom)

/-- Embeds `extract_rows_from_page` applied to the page's word list: the
table of cell tuples together with the raw cell groups. -/
def extractRowsFromPage (vt ht : Nat) (words : List Word) :
    List (List (String × Nat × Nat × Nat × Nat)) × List (List (List Word)) :=
  ((groupWordsIntoLines vt words).map
      (fun line => (groupLineWordsIntoCells ht line).map cellToTuple),
   (groupWordsIntoLines vt words).map
      (fun line => groupLineWordsIntoCells ht line))

instance : DecidableEq (List (String × Nat × Nat × Nat × Nat)) := inferInstance

instance : DecidableEq (List (List (String × Nat × Nat × Nat × Nat))) := inferInstance

/-- C9 counterexample: two words sharing the same `top` and `x0` but with
different texts.  The internal sorts are stable, so the two input orders
survive to the cell tuple, whose joined text differs: the grouping is not
invariant under permutation of the input. -/
theorem extractRows_order_counterexample :
    extractRowsFromPage 5 10
        [⟨"a", 0, 5, 0, 10⟩, ⟨"b", 0, 5, 0, 10⟩] ≠
      extractRowsFromPage 5 10
        [⟨"b", 0, 5, 0, 10⟩, ⟨"a", 0, 5, 0, 10⟩] := by
  decide

/-- Boolean form of "this word continues the line started at vertical
position `currY`". -/
def nearTop (vt currY : Nat) (w : Word) : Bool :=
  Nat.dist w.top currY ≤ vt

/-- Structured form of the line grouping on an already-sorted list: each
line is the maximal prefix of words near the first word's `top`. -/
def linesOfSorted (vt : Nat) : List Word → List (List Word)
  | [] => []
  | w :: rest =>
      (w :: rest.takeWhile (nearTop vt w.top)) ::
        linesOfSorted vt (rest.dropWhile (nearTop vt w.top))
termination_by l => l.length
decreasing_by
  simp only [List.length_cons]
  exact Nat.lt_succ_of_le (List.dropWhile_sublist _).length_le

lemma linesOfSorted_nil (vt : Nat) : linesOfSorted vt [] = [] := by
  rw [linesOfSorted.eq_def]

lemma linesOfSorted_cons (vt : Nat) (w : Word) (rest : List Word) :
    linesOfSorted vt (w :: rest) =
      (w :: rest.takeWhile (nearTop vt w.top)) ::
        linesOfSorted vt (rest.dropWhile (nearTop vt w.top)) := by
  rw [linesOfSorted.eq_def]

lemma linesGo_eq (vt : Nat) (xs : List Word) : ∀ (curr : List Word) (currY : Nat),
    linesGo vt xs curr currY =
      (curr ++ xs.takeWhile (nearTop vt currY)) ::
        linesOfSorted vt (xs.dropWhile (nearTop vt currY)) := by
  induction xs with
  | nil =>
      intro curr currY
      simp [linesGo, linesOfSorted_nil]
  | cons w ws ih =>
      intro curr currY
      rw [linesGo]
      by_cases h : Nat.dist w.top currY ≤ vt
      · rw [if_pos h, ih (curr ++ [w]) currY,
          List.takeWhile_cons_of_pos (by simp [nearTop, h]),
          List.dropWhile_cons_of_pos (by simp [nearTop, h])]
        simp [List.append_assoc]
      · rw [if_neg h, ih [w] w.top,
          List.takeWhile_cons_of_neg (by simp [nearTop, h]),
          List.dropWhile_cons_of_neg (by simp [nearTop, h]),
          linesOfSorted_cons]
        simp

lemma groupWordsIntoLines_eq (vt : Nat) (words : List Word) :
    groupWordsIntoLines vt words = linesOfSorted vt (sortByTop words) := by
  unfold groupWordsIntoLines
  cases hs : sortByTop words with
  | nil => rw [linesOfSorted_nil]
  | cons w rest =>
      show linesGo vt rest [w] w.top = linesOfSorted vt (w :: rest)
      rw [linesGo_eq vt rest [w] w.top, linesOfSorted_cons]
      simp

lemma linesOfSorted_flatten (vt : Nat) : ∀ (n : Nat) (s : List Word),
    s.length ≤ n → (linesOfSorted vt s).flatten = s := by
  intro n
  induction n with
  | zero =>
      intro s hs
      have : s = [] := List.length_eq_zero.mp (Nat.le_zero.mp hs)
      subst this
      simp [linesOfSorted_nil]
  | succ n ih =>
      intro s hs
      cases s with
      | nil => simp [linesOfSorted_nil]
      | cons w rest =>
          have hdrop : (rest.dropWhile (nearTop vt w.top)).length ≤ n := by
            have hsub : (rest.dropWhile (nearTop vt w.top)).length ≤ rest.length :=
              (List.dropWhile_sublist _).length_le
            simp only [List.length_cons] at hs
            omega
          rw [linesOfSorted_cons, List.flatten_cons, ih _ hdrop,
            List.cons_append, List.takeWhile_append_dropWhile]

lemma linesOfSorted_sorted (vt : Nat) : ∀ (n : Nat) (s : List Word),
    s.length ≤ n → s.Sorted topLe →
    ∀ g ∈ linesOfSorted vt s, g.Sorted topLe := by
  intro n
  induction n with
  | zero =>
      intro s hs _ g hg
      have : s = [] := List.length_eq_zero.mp (Nat.le_zero.mp hs)
      subst this
      rw [linesOfSorted_nil] at hg
      exact absurd hg (List.not_mem_nil g)
  | succ n ih =>
      intro s hs hsort g hg
      cases s with
      | nil =>
          rw [linesOfSorted_nil] at hg
          exact absurd hg (List.not_mem_nil g)
      | cons w rest =>
          rw [linesOfSorted_cons] at hg
          rcases List.mem_cons.mp hg with rfl | hg'
          · exact hsort.sublist ((List.takeWhile_sublist _).cons₂ w)
          · have hdrop : (rest.dropWhile (nearTop vt w.top)).length ≤ n := by
              have hsub : (rest.dropWhile (nearTop vt w.top)).length ≤ rest.length :=
                (List.dropWhile_sublist _).length_le
              simp only [List.length_cons] at hs
              omega
            have hsort' : (rest.dropWhile (nearTop vt w.top)).Sorted topLe :=
              hsort.sublist ((List.dropWhile_sublist _).trans (List.sublist_cons_self w rest))
            exact ih _ hdrop hsort' g hg'

lemma map_top_eq_of_perm_sorted {s1 s2 : List Word} (hp : s1.Perm s2)
    (h1 : s1.Sorted topLe) (h2 : s2.Sorted topLe) :
    s1.map (fun w => w.top) = s2.map (fun w => w.top) := by
  have hm1 : List.Sorted (fun a b => a ≤ b) (s1.map (fun w => w.top)) :=
    List.pairwise_map.mpr h1
  have hm2 : List.Sorted (fun a b => a ≤ b) (s2.map (fun w => w.top)) :=
    List.pairwise_map.mpr h2
  exact List.eq_of_perm_of_sorted (hp.map _) hm1 hm2

lemma near_filter_of_sorted (vt y : Nat) (l : List Word) :
    l.Sorted topLe → (∀ x ∈ l, y ≤ x.top) →
    l.takeWhile (nearTop vt y) = l.filter (nearTop vt y) ∧
      l.dropWhile (nearTop vt y) = l.filter (fun x => !(nearTop vt y x)) := by
  induction l with
  | nil => intro _ _; simp
  | cons a as ih =>
      intro hs hy
      have hay : y ≤ a.top := hy a (List.mem_cons_self a as)
      by_cases hp : nearTop vt y a = true
      · obtain ⟨iht, ihd⟩ := ih hs.of_cons (fun x hx => hy x (List.mem_cons_of_mem a hx))
        refine ⟨?_, ?_⟩
        · rw [List.takeWhile_cons_of_pos hp, List.filter_cons_of_pos hp, iht]
        · rw [List.dropWhile_cons_of_pos hp,
            List.filter_cons_of_neg (by simp [hp]), ihd]
      · have hfa : ∀ x ∈ as, nearTop vt y x = false := by
          intro x hx
          have hax : a.top ≤ x.top := List.rel_of_sorted_cons hs x hx
          have hna : ¬ Nat.dist a.top y ≤ vt := by simpa [nearTop] using hp
          have h1 : Nat.dist a.top y = a.top - y := by
            rw [Nat.dist_comm]
            exact Nat.dist_eq_sub_of_le hay
          have h2 : Nat.dist x.top y = x.top - y := by
            rw [Nat.dist_comm]
            exact Nat.dist_eq_sub_of_le (le_trans hay hax)
          simp only [nearTop, decide_eq_false_iff_not]
          omega
        refine ⟨?_, ?_⟩
        · rw [List.takeWhile_cons_of_neg hp, List.filter_cons_of_neg hp, eq_comm,
            List.filter_eq_nil_iff]
          intro x hx
          simp [hfa x hx]
        · rw [List.dropWhile_cons_of_neg hp, List.filter_cons_of_pos (by simp [hp])]
          have : as.filter (fun x => !(nearTop vt y x)) = as :=
            List.filter_eq_self.mpr (fun x hx => by simp [hfa x hx])
          rw [this]

lemma linesOfSorted_perm (vt : Nat) : ∀ (n : Nat) (s1 s2 : List Word),
    s1.length ≤ n → s1.Perm s2 → s1.Sorted topLe → s2.Sorted topLe →
    List.Forall₂ (fun a b => a.Perm b) (linesOfSorted vt s1) (linesOfSorted vt s2) := by
  intro n
  induction n with
  | zero =>
      intro s1 s2 hlen hp _ _
      have e1 : s1 = [] := List.length_eq_zero.mp (Nat.le_zero.mp hlen)
      subst e1
      have e2 : s2 = [] := hp.nil_eq.symm
      subst e2
      rw [linesOfSorted_nil]
      exact List.Forall₂.nil
  | succ n ih =>
      intro s1 s2 hlen hp hs1 hs2
      cases s1 with
      | nil =>
          have e2 : s2 = [] := hp.nil_eq.symm
          subst e2
          rw [linesOfSorted_nil]
          exact List.Forall₂.nil
      | cons w1 r1 =>
          cases s2 with
          | nil => exact absurd hp.symm.nil_eq (by simp)
          | cons w2 r2 =>
              have htops := map_top_eq_of_perm_sorted hp hs1 hs2
              simp only [List.map_cons, List.cons.injEq] at htops
              obtain ⟨hw, _⟩ := htops
              have hy1 : ∀ x ∈ w1 :: r1, w1.top ≤ x.top := by
                intro x hx
                rcases List.mem_cons.mp hx with rfl | hx'
                · exact le_refl _
                · exact List.rel_of_sorted_cons hs1 x hx'
              have hy2 : ∀ x ∈ w2 :: r2, w1.top ≤ x.top := by
                intro x hx
                rcases List.mem_cons.mp hx with rfl | hx'
                · exact le_of_eq hw
                · exact hw ▸ List.rel_of_sorted_cons hs2 x hx'
              obtain ⟨ht1, hd1⟩ := near_filter_of_sorted vt w1.top (w1 :: r1) hs1 hy1
              obtain ⟨ht2, hd2⟩ := near_filter_of_sorted vt w1.top (w2 :: r2) hs2 hy2
              have hpw1 : nearTop vt w1.top w1 = true := by
                simp [nearTop]
              have hpw2 : nearTop vt w1.top w2 = true := by
                simp [nearTop, ← hw]
              rw [linesOfSorted_cons, linesOfSorted_cons, ← hw]
              have e1 : w1 :: r1.takeWhile (nearTop vt w1.top) =
                  (w1 :: r1).filter (nearTop vt w1.top) :=
                (List.takeWhile_cons_of_pos hpw1).symm.trans ht1
              have e2 : w2 :: r2.takeWhile (nearTop vt w1.top) =
                  (w2 :: r2).filter (nearTop vt w1.top) :=
                (List.takeWhile_cons_of_pos hpw2).symm.trans ht2
              have d1 : r1.dropWhile (nearTop vt w1.top) =
                  (w1 :: r1).filter (fun x => !(nearTop vt w1.top x)) :=
                (List.dropWhile_cons_of_pos hpw1).symm.trans hd1
              have d2 : r2.dropWhile (nearTop vt w1.top) =
                  (w2 :: r2).filter (fun x => !(nearTop vt w1.top x)) :=
                (List.dropWhile_cons_of_pos hpw2).symm.trans hd2
              refine List.Forall₂.cons ?_ ?_
              · rw [e1, e2]
                exact hp.filter _
              · have hperm' : (r1.dropWhile (nearTop vt w1.top)).Perm
                    (r2.dropWhile (nearTop vt w1.top)) := by
                  rw [d1, d2]
                  exact hp.filter _
                have hlen' : (r1.dropWhile (nearTop vt w1.top)).length ≤ n := by
                  have hsub : (r1.dropWhile (nearTop vt w1.top)).length ≤ r1.length :=
                    (List.dropWhile_sublist _).length_le
                  simp only [List.length_cons] at hlen
                  omega
                have hsort1 : (r1.dropWhile (nearTop vt w1.top)).Sorted topLe :=
                  hs1.sublist ((List.dropWhile_sublist _).trans
                    (List.sublist_cons_self w1 r1))
                have hsort2 : (r2.dropWhile (nearTop vt w1.top)).Sorted topLe :=
                  hs2.sublist ((List.dropWhile_sublist _).trans
                    (List.sublist_cons_self w2 r2))
                exact ih _ _ hlen' hperm' hsort1 hsort2

/-- Lexicographic order on words by `x0` and then `top`: the order that
the stable sort by `x0` produces on a list that is already sorted by
`top`. -/
def lexX0Top (a b : Word) : Prop :=
  a.x0 < b.x0 ∨ (a.x0 = b.x0 ∧ a.top ≤ b.top)

lemma orderedInsert_lex_sorted (a : Word) : ∀ (ms : List Word),
    ms.Sorted lexX0Top → (∀ b ∈ ms, a.top ≤ b.top) →
    (List.orderedInsert x0Le a ms).Sorted lexX0Top := by
  intro ms
  induction ms with
  | nil =>
      intro _ _
      simp [List.orderedInsert]
  | cons b ms ih =>
      intro hms hle
      rw [List.orderedInsert]
      by_cases h : x0Le a b
      · rw [if_pos h]
        refine List.pairwise_cons.mpr ⟨?_, hms⟩
        intro c hc
        have hx0ab : a.x0 ≤ b.x0 := h
        rcases List.mem_cons.mp hc with rfl | hc'
        · rcases Nat.lt_or_ge a.x0 c.x0 with hlt | hge
          · exact Or.inl hlt
          · exact Or.inr ⟨Nat.le_antisymm hx0ab hge,
              hle c (List.mem_cons_self c ms)⟩
        · have hbc := List.rel_of_sorted_cons hms c hc'
          have hbx : b.x0 ≤ c.x0 := by
            rcases hbc with h1 | ⟨h1, _⟩
            · omega
            · omega
          rcases Nat.lt_or_ge a.x0 c.x0 with hlt | hge
          · exact Or.inl hlt
          · exact Or.inr ⟨Nat.le_antisymm (le_trans hx0ab hbx) hge,
              hle c (List.mem_cons_of_mem b hc')⟩
      · rw [if_neg h]
        have hba : b.x0 < a.x0 := by
          have h' : ¬ a.x0 ≤ b.x0 := h
          omega
        refine List.pairwise_cons.mpr
          ⟨?_, ih hms.of_cons (fun c hc => hle c (List.mem_cons_of_mem b hc))⟩
        intro c hc
        rcases (List.mem_orderedInsert x0Le).mp hc with rfl | hc'
        · exact Or.inl hba
        · exact List.rel_of_sorted_cons hms c hc'

lemma sortByX0_sorted_lex : ∀ (l : List Word), l.Sorted topLe →
    (sortByX0 l).Sorted lexX0Top := by
  intro l
  induction l with
  | nil =>
      intro _
      exact List.Pairwise.nil
  | cons a l ih =>
      intro hs
      show (List.orderedInsert x0Le a (List.insertionSort x0Le l)).Sorted lexX0Top
      apply orderedInsert_lex_sorted
      · exact ih hs.of_cons
      · intro b hb
        have hb' : b ∈ l := (List.perm_insertionSort x0Le l).mem_iff.mp hb
        exact List.rel_of_sorted_cons hs b hb'

lemma eq_of_perm_sorted_lex : ∀ (l1 l2 : List Word), l1.Perm l2 →
    l1.Sorted lexX0Top → l2.Sorted lexX0Top →
    (∀ a ∈ l1, ∀ b ∈ l1, lexX0Top a b → lexX0Top b a → a = b) →
    l1 = l2 := by
  intro l1
  induction l1 with
  | nil =>
      intro l2 hp _ _ _
      exact hp.nil_eq
  | cons a t1 ih =>
      intro l2 hp h1 h2 anti
      cases l2 with
      | nil => exact absurd hp.symm.nil_eq (by simp)
      | cons b t2 =>
          by_cases hab : a = b
          · subst hab
            have ht : t1 = t2 := ih t2 hp.cons_inv h1.of_cons h2.of_cons
              (fun x hx y hy hxy hyx =>
                anti x (List.mem_cons_of_mem a hx) y (List.mem_cons_of_mem a hy) hxy hyx)
            rw [ht]
          · have ha2 : a ∈ b :: t2 := hp.mem_iff.mp (List.mem_cons_self a t1)
            have ha2' : a ∈ t2 := by
              rcases List.mem_cons.mp ha2 with h | h
              · exact absurd h hab
              · exact h
            have hb1 : b ∈ a :: t1 := hp.symm.mem_iff.mp (List.mem_cons_self b t2)
            have hb1' : b ∈ t1 := by
              rcases List.mem_cons.mp hb1 with h | h
              · exact absurd h.symm hab
              · exact h
            have hba : lexX0Top b a := List.rel_of_sorted_cons h2 a ha2'
            have hab' : lexX0Top a b := List.rel_of_sorted_cons h1 b hb1'
            exact absurd (anti a (List.mem_cons_self a t1) b
              (List.mem_cons_of_mem a hb1') hab' hba) hab

lemma sortByX0_eq_of_perm (l1 l2 : List Word) (hp : l1.Perm l2)
    (h1 : l1.Sorted topLe) (h2 : l2.Sorted topLe)
    (hdist : ∀ a ∈ l1, ∀ b ∈ l1, a.top = b.top → a.x0 = b.x0 → a = b) :
    sortByX0 l1 = sortByX0 l2 := by
  apply eq_of_perm_sorted_lex
  · exact (List.perm_insertionSort x0Le l1).trans
      (hp.trans (List.perm_insertionSort x0Le l2).symm)
  · exact sortByX0_sorted_lex l1 h1
  · exact sortByX0_sorted_lex l2 h2
  · intro a ha b hb hl1 hl2
    have ha' : a ∈ l1 := (List.perm_insertionSort x0Le l1).mem_iff.mp ha
    have hb' : b ∈ l1 := (List.perm_insertionSort x0Le l1).mem_iff.mp hb
    have hxx : a.x0 = b.x0 := by
      rcases hl1 with h1' | ⟨h1', _⟩ <;> rcases hl2 with h2' | ⟨h2', _⟩ <;> omega
    have htt : a.top = b.top := by
      rcases hl1 with h1' | ⟨_, h1'⟩ <;> rcases hl2 with h2' | ⟨_, h2'⟩ <;> omega
    exact hdist a ha' b hb' htt hxx

lemma groupLineWordsIntoCells_congr (ht : Nat) (g1 g2 : List Word)
    (h : sortByX0 g1 = sortByX0 g2) :
    groupLineWordsIntoCells ht g1 = groupLineWordsIntoCells ht g2 := by
  unfold groupLineWordsIntoCells
  rw [h]

lemma forall₂_map_process {β : Type} (f : List Word → β)
    (hf : ∀ g1 g2, g1.Perm g2 → g1.Sorted topLe → g2.Sorted topLe →
      (∀ a ∈ g1, ∀ b ∈ g1, a.top = b.top → a.x0 = b.x0 → a = b) → f g1 = f g2) :
    ∀ (L1 L2 : List (List Word)), List.Forall₂ (fun a b => a.Perm b) L1 L2 →
    (∀ g ∈ L1, g.Sorted topLe) → (∀ g ∈ L2, g.Sorted topLe) →
    (∀ g ∈ L1, ∀ a ∈ g, ∀ b ∈ g, a.top = b.top → a.x0 = b.x0 → a = b) →
    L1.map f = L2.map f := by
  intro L1 L2 hF
  induction hF with
  | nil =>
      intro _ _ _
      rfl
  | @cons a b L1' L2' hab hrest ih =>
      intro hs1 hs2 hdist
      rw [List.map_cons, List.map_cons,
        hf a b hab (hs1 a (List.mem_cons_self a L1')) (hs2 b (List.mem_cons_self b L2'))
          (hdist a (List.mem_cons_self a L1')),
        ih (fun g hg => hs1 g (List.mem_cons_of_mem a hg))
          (fun g hg => hs2 g (List.mem_cons_of_mem b hg))
          (fun g hg => hdist g (List.mem_cons_of_mem a hg))]

/-- C9 amended: the row/cell grouping is a function of the input word
multiset (permutations of the input produce identical tables and raw
cells) provided no two distinct words share both the same `top` and the
same `x0`.  Ties in both sort keys are resolved by the stable sorts in
input order and can change the joined cell text, as the counterexample
shows. -/
theorem extractRows_perm_invariant (vt ht : Nat) (l1 l2 : List Word)
    (hperm : l1.Perm l2)
    (hdist : ∀ a ∈ l1, ∀ b ∈ l1, a.top = b.top → a.x0 = b.x0 → a = b) :
    extractRowsFromPage vt ht l1 = extractRowsFromPage vt ht l2 := by
  have hs1 : (sortByTop l1).Sorted topLe := List.sorted_insertionSort topLe l1
  have hs2 : (sortByTop l2).Sorted topLe := List.sorted_insertionSort topLe l2
  have hsp : (sortByTop l1).Perm (sortByTop l2) :=
    (List.perm_insertionSort topLe l1).trans
      (hperm.trans (List.perm_insertionSort topLe l2).symm)
  have hF := linesOfSorted_perm vt (sortByTop l1).length (sortByTop l1)
    (sortByTop l2) le_rfl hsp hs1 hs2
  have hLs1 : ∀ g ∈ linesOfSorted vt (sortByTop l1), g.Sorted topLe :=
    linesOfSorted_sorted vt _ _ le_rfl hs1
  have hLs2 : ∀ g ∈ linesOfSorted vt (sortByTop l2), g.Sorted topLe :=
    linesOfSorted_sorted vt _ _ le_rfl hs2
  have hmem1 : ∀ g ∈ linesOfSorted vt (sortByTop l1), ∀ a ∈ g, a ∈ l1 := by
    intro g hg a ha
    have hfl : a ∈ (linesOfSorted vt (sortByTop l1)).flatten :=
      List.mem_flatten.mpr ⟨g, hg, ha⟩
    rw [linesOfSorted_flatten vt _ _ le_rfl] at hfl
    exact (List.perm_insertionSort topLe l1).mem_iff.mp hfl
  have hdistL : ∀ g ∈ linesOfSorted vt (sortByTop l1), ∀ a ∈ g, ∀ b ∈ g,
      a.top = b.top → a.x0 = b.x0 → a = b :=
    fun g hg a ha b hb => hdist a (hmem1 g hg a ha) b (hmem1 g hg b hb)
  have hfcell : ∀ g1 g2, g1.Perm g2 → g1.Sorted topLe → g2.Sorted topLe →
      (∀ a ∈ g1, ∀ b ∈ g1, a.top = b.top → a.x0 = b.x0 → a = b) →
      groupLineWordsIntoCells ht g1 = groupLineWordsIntoCells ht g2 :=
    fun g1 g2 hp hg1 hg2 hd =>
      groupLineWordsIntoCells_congr ht g1 g2 (sortByX0_eq_of_perm g1 g2 hp hg1 hg2 hd)
  unfold extractRowsFromPage
  rw [groupWordsIntoLines_eq, groupWordsIntoLines_eq]
  rw [forall₂_map_process (fun line => (groupLineWordsIntoCells ht line).map cellToTuple)
      (fun g1 g2 hp hg1 hg2 hd => by
        show (groupLineWordsIntoCells ht g1).map cellToTuple =
          (groupLineWordsIntoCells ht g2).map cellToTuple
        rw [hfcell g1 g2 hp hg1 hg2 hd])
      _ _ hF hLs1 hLs2 hdistL,
    forall₂_map_process (fun line => groupLineWordsIntoCells ht line)
      hfcell _ _ hF hLs1 hLs2 hdistL]

/-- Witness for the amended C9 at a concrete pair of permuted inputs whose
words have distinct `(top, x0)` pairs. -/
theorem extractRows_perm_invariant_witness :
    List.Perm [(⟨"a", 0, 5, 0, 10⟩ : Word), ⟨"b", 20, 25, 0, 10⟩]
        [⟨"b", 20, 25, 0, 10⟩, ⟨"a", 0, 5, 0, 10⟩] ∧
      (∀ a ∈ [(⟨"a", 0, 5, 0, 10⟩ : Word), ⟨"b", 20, 25, 0, 10⟩],
        ∀ b ∈ [(⟨"a", 0, 5, 0, 10⟩ : Word), ⟨"b", 20, 25, 0, 10⟩],
        a.top = b.top → a.x0 = b.x0 → a = b) ∧
      extractRowsFromPage 5 10 [(⟨"a", 0, 5, 0, 10⟩ : Word), ⟨"b", 20, 25, 0, 10⟩] =
        extractRowsFromPage 5 10 [⟨"b", 20, 25, 0, 10⟩, ⟨"a", 0, 5, 0, 10⟩] :=
  ⟨List.Perm.swap _ _ _, by decide,
    extractRows_perm_invariant 5 10 _ _ (List.Perm.swap _ _ _) (by decide)⟩

end QDR
